import Mathlib

/-!
Verification development for the `lambda` header-only library
(`lambda-expression.hpp`), a lambda-calculus evaluator built on a
`std::function<expression(expression)>`-backed closure type.

Modelling choices
=================

The C++ type `expression` is a wrapped host closure.  Every closure that
the source ever wraps into an `expression` is a lambda literal appearing
in the header, so we embed `expression` as an inductive type `Expr` with
one constructor per distinct closure shape of the source (lambdas whose
bodies are literally identical — e.g. `truth`'s outer lambda, `K`'s outer
lambda, the selector inside `car`, and the value returned by
`empty_list`'s body — share one constructor, since they are textually and
behaviourally the same closure).

The private `expression::pass_by_value` (value-call: immediately invoke
the underlying closure) becomes the evaluator `pbv`.  The public
`expression::operator()` (name-call) never invokes anything: it only
builds the deferring closure `[arg, *this](_) { return
pass_by_value(arg).pass_by_value(_); }`, which is the constructor
`Expr.nameApp`.

Two side effects occur in the source: the `decoded` counter captured by
reference inside `church_decode`'s counting lambda, and the output
iterator captured by reference inside `scott_decode`'s emitting lambda.
Both are threaded through `pbv` as an explicit state `St`.  The host C++
evaluation can diverge (e.g. value-calling `Y(I)`), so `pbv` takes a
fuel argument and returns `Option`; `none` means "ran out of fuel".
A fuel-free big-step relation `Step` mirrors `pbv` case for case and is
proved sound and complete for it, so general theorems can be stated
without fuel arithmetic.
-/

namespace LambdaCpp

/-- The shapes of host closures wrapped into `expression` by the source.
Each constructor is one lambda literal of `lambda-expression.hpp`
(captured `expression`s become constructor arguments; lambdas with
identical bodies share a constructor):

* `nameApp f a` — the closure returned by the public `operator()`
  (name-call of `f` on `a`), `lambda-expression.hpp:42`;
* `ch n` / `chF n f` — outer and inner lambdas of `church_encode`;
* `k x` — `[x](y){ return x; }` (inner lambda of `truth`/`K`, second
  argument built inside `pred`, result of the `car` selector);
* `idE` — `[](x){ return x; }` (`I`, inner lambda of `falsity`, third
  argument built inside `pred`);
* `truth` — `[](x){ return [x](y){ return x; }; }` (`truth`, `K`, the
  selector inside `car`, and the closure returned by `empty_list`);
* `falsity` — `[](x){ return [](y){ return y; }; }` (`falsity` and the
  selector inside `cdr`);
* `Y` / `yInner f` — the `Y` combinator and its inner self-application
  lambda `[f](x){ return f(x(x)); }`;
* `pred`, `pred1 n`, `pred2 n f`, `predG f`, `predG2 f g` — the nested
  lambdas of the Church predecessor;
* `sub` / `sub1 n` — the subtraction combinator;
* `isZero` — `is_zero` (its argument `[](x){ return falsity; }` is the
  shape `k falsity`);
* `cons`, `cons1 a`, `cons2 a b` — the Scott-pair constructor;
* `car`, `cdr`, `emptyList`, `isEmpty` — the Scott-list operations
  (`is_empty`'s selector `[](x){ return [](y){ return falsity; }; }` is
  the shape `k (k falsity)`);
* `counter` — the counting lambda `[&decoded](x){ ++decoded; return x; }`
  local to `church_decode`;
* `outL`, `outL1 f`, `outL2 f l` — the `_output_list` lambda of
  `scott_decode` and its nested closures capturing the output sink. -/
inductive Expr : Type
  | nameApp (f a : Expr)
  | ch (n : Nat)
  | chF (n : Nat) (f : Expr)
  | k (x : Expr)
  | idE
  | truth
  | falsity
  | Y
  | yInner (f : Expr)
  | pred
  | pred1 (n : Expr)
  | pred2 (n f : Expr)
  | predG (f : Expr)
  | predG2 (f g : Expr)
  | sub
  | sub1 (n : Expr)
  | isZero
  | cons
  | cons1 (a : Expr)
  | cons2 (a b : Expr)
  | car
  | cdr
  | emptyList
  | isEmpty
  | counter
  | outL
  | outL1 (f : Expr)
  | outL2 (f l : Expr)
  deriving DecidableEq, Repr

/-- The mutable state visible during evaluation: `out` is the output
sequence written through the iterator captured by `scott_decode`'s
emitting closure, `cnt` is the `decoded` counter captured by
`church_decode`'s counting closure. -/
structure St : Type where
  out : List Expr
  cnt : Nat
  deriving DecidableEq, Repr

/-- Sequencing of fallible stateful evaluation stages (monadic bind on
`Option (Expr × St)`, written out so that proofs can unfold it cleanly). -/
def obind (o : Option (Expr × St)) (f : Expr → St → Option (Expr × St)) :
    Option (Expr × St) :=
  match o with
  | none => none
  | some (r, st) => f r st

/-- `pbv fuel e a st` is `e.pass_by_value(a)` run in state `st`:
it invokes the host closure `e` stands for, eagerly, exactly as
`std::function::operator()` does.  Each case is the body of the
corresponding lambda literal of the source; applications written with
parentheses inside those bodies are public name-calls and therefore
merely build `nameApp` nodes, while explicit `pass_by_value` calls in
the source (`nameApp`'s stored behaviour, `church_decode`,
`scott_decode`'s `_output_list`) recurse into `pbv`.  `none` means the
fuel ran out (host divergence). -/
def pbv : Nat → Expr → Expr → St → Option (Expr × St)
  | 0, _, _, _ => none
  | fuel + 1, e, a, st =>
    match e with
    | .nameApp f x =>
        obind (pbv fuel f x st) (fun r st₁ => pbv fuel r a st₁)
    | .ch n => some (.chF n a, st)
    | .chF n f => some ((Expr.nameApp f)^[n] a, st)
    | .k x => some (x, st)
    | .idE => some (a, st)
    | .truth => some (.k a, st)
    | .falsity => some (.idE, st)
    | .Y => some (.nameApp a (.nameApp (.yInner a) (.yInner a)), st)
    | .yInner f => some (.nameApp f (.nameApp a a), st)
    | .pred => some (.pred1 a, st)
    | .pred1 n => some (.pred2 n a, st)
    | .pred2 n f =>
        some (.nameApp (.nameApp (.nameApp n (.predG f)) (.k a)) .idE, st)
    | .predG f => some (.predG2 f a, st)
    | .predG2 f g => some (.nameApp a (.nameApp g f), st)
    | .sub => some (.sub1 a, st)
    | .sub1 n => some (.nameApp (.nameApp a .pred) n, st)
    | .isZero => some (.nameApp (.nameApp a (.k .falsity)) .truth, st)
    | .cons => some (.cons1 a, st)
    | .cons1 x => some (.cons2 x a, st)
    | .cons2 x y => some (.nameApp (.nameApp a x) y, st)
    | .car => some (.nameApp a .truth, st)
    | .cdr => some (.nameApp a .falsity, st)
    | .emptyList => some (.truth, st)
    | .isEmpty => some (.nameApp a (.k (.k .falsity)), st)
    | .counter => some (a, { st with cnt := st.cnt + 1 })
    | .outL => some (.outL1 a, st)
    | .outL1 f =>
        obind (pbv fuel .isEmpty a st) (fun r1 st₁ =>
          obind (pbv fuel r1 .emptyList st₁) (fun r2 st₂ =>
            pbv fuel r2 (.outL2 f a) st₂))
    | .outL2 f l =>
        obind (pbv fuel .car l st) (fun c st₁ =>
          obind (pbv fuel .cdr l ⟨st₁.out ++ [c], st₁.cnt⟩) (fun d st₃ =>
            obind (pbv fuel f d st₃) (fun r st₄ =>
              pbv fuel r a st₄)))

/-- The public apply, `expression::operator()`: a name-call never runs
the underlying closure, it only wraps `self` and `arg` into the
deferring closure.  Total — it cannot fail or diverge. -/
def nameCall (self arg : Expr) : Expr := .nameApp self arg

/-- `church_encode`. -/
def church_encode (n : Nat) : Expr := .ch n

/-- The three `pass_by_value` stages of `church_decode`, starting from
an arbitrary ambient state. -/
def decodeRun (fuel : Nat) (e : Expr) (st : St) : Option (Expr × St) :=
  obind (pbv fuel e .counter st) (fun r1 st₁ =>
    obind (pbv fuel r1 .idE st₁) (fun r2 st₂ =>
      pbv fuel r2 .idE st₂))

/-- `church_decode`: run the three forcing stages with a fresh local
counter (`std::size_t decoded = 0`) and return its final value. -/
def church_decode (fuel : Nat) (e : Expr) : Option Nat :=
  (decodeRun fuel e ⟨[], 0⟩).map (fun p => p.2.cnt)

/-- `scott_encode`: right fold of name-called `cons` over the sequence,
seeded with `empty_list` (the source folds with `std::accumulate` over
reversed iterators). -/
def scott_encode (es : List Expr) : Expr :=
  es.foldr (fun e acc => .nameApp (.nameApp .cons e) acc) .emptyList

/-- `scott_decode`: value-call `Y` on `_output_list`, the result on the
list, then force twice with `I`; the emitted elements are collected in
`st.out` (the output iterator starts empty and fresh). -/
def scott_decode (fuel : Nat) (l : Expr) : Option (List Expr) :=
  (obind (pbv fuel .Y .outL ⟨[], 0⟩) (fun r1 st₁ =>
    obind (pbv fuel r1 l st₁) (fun r2 st₂ =>
      obind (pbv fuel r2 .idE st₂) (fun r3 st₃ =>
        pbv fuel r3 .idE st₃)))).map (fun p => p.2.out)

/-- `run_on_integer_sequence`: Church-encode each input, Scott-encode
the sequence, name-call the program on it, Scott-decode the result and
Church-decode each emitted element. -/
def run_on_integer_sequence (fuel : Nat) (xs : List Nat) (program : Expr) :
    Option (List Nat) := do
  let es ← scott_decode fuel (.nameApp program (scott_encode (xs.map church_encode)))
  es.mapM (church_decode fuel)

/-- Fuel-free big-step counterpart of `pbv`: `Step e a st r st'` holds
when `e.pass_by_value(a)` run in state `st` terminates with result `r`
and state `st'`.  Each rule mirrors the corresponding `pbv` case; the
equivalence with `pbv` is `Step.toPbv` / `pbv_toStep` below. -/
inductive Step : Expr → Expr → St → Expr → St → Prop where
  | nameApp {f x a st r st₁ r' st₂} :
      Step f x st r st₁ → Step r a st₁ r' st₂ →
      Step (.nameApp f x) a st r' st₂
  | ch {n a st} : Step (.ch n) a st (.chF n a) st
  | chF {n f a st} : Step (.chF n f) a st ((Expr.nameApp f)^[n] a) st
  | k {x a st} : Step (.k x) a st x st
  | idE {a st} : Step .idE a st a st
  | truth {a st} : Step .truth a st (.k a) st
  | falsity {a st} : Step .falsity a st .idE st
  | Y {a st} :
      Step .Y a st (.nameApp a (.nameApp (.yInner a) (.yInner a))) st
  | yInner {f a st} : Step (.yInner f) a st (.nameApp f (.nameApp a a)) st
  | pred {a st} : Step .pred a st (.pred1 a) st
  | pred1 {n a st} : Step (.pred1 n) a st (.pred2 n a) st
  | pred2 {n f a st} :
      Step (.pred2 n f) a st
        (.nameApp (.nameApp (.nameApp n (.predG f)) (.k a)) .idE) st
  | predG {f a st} : Step (.predG f) a st (.predG2 f a) st
  | predG2 {f g a st} : Step (.predG2 f g) a st (.nameApp a (.nameApp g f)) st
  | sub {a st} : Step .sub a st (.sub1 a) st
  | sub1 {n a st} : Step (.sub1 n) a st (.nameApp (.nameApp a .pred) n) st
  | isZero {a st} :
      Step .isZero a st (.nameApp (.nameApp a (.k .falsity)) .truth) st
  | cons {a st} : Step .cons a st (.cons1 a) st
  | cons1 {x a st} : Step (.cons1 x) a st (.cons2 x a) st
  | cons2 {x y a st} : Step (.cons2 x y) a st (.nameApp (.nameApp a x) y) st
  | car {a st} : Step .car a st (.nameApp a .truth) st
  | cdr {a st} : Step .cdr a st (.nameApp a .falsity) st
  | emptyList {a st} : Step .emptyList a st .truth st
  | isEmpty {a st} : Step .isEmpty a st (.nameApp a (.k (.k .falsity))) st
  | counter {a st} : Step .counter a st a ⟨st.out, st.cnt + 1⟩
  | outL {a st} : Step .outL a st (.outL1 a) st
  | outL1 {f a st r1 st₁ r2 st₂ r3 st₃} :
      Step .isEmpty a st r1 st₁ → Step r1 .emptyList st₁ r2 st₂ →
      Step r2 (.outL2 f a) st₂ r3 st₃ →
      Step (.outL1 f) a st r3 st₃
  | outL2 {f l a st c st₁ d st₂ r st₃ r' st₄} :
      Step .car l st c st₁ → Step .cdr l ⟨st₁.out ++ [c], st₁.cnt⟩ d st₂ →
      Step f d st₂ r st₃ → Step r a st₃ r' st₄ →
      Step (.outL2 f l) a st r' st₄

/-- Two expressions are application-equivalent when value-calling them
on any argument in any state produces identical results and identical
states (the only notion of "being the same element" the library has:
the spec stipulates that Expressions have no equality and only
application behaviour matters). -/
def AppEquiv (e e' : Expr) : Prop :=
  ∀ a st r st', Step e a st r st' ↔ Step e' a st r st'

/-- `sub(church_encode n)(church_encode m)` assembled by public
name-calls. -/
def subE (n m : Nat) : Expr :=
  .nameApp (.nameApp .sub (church_encode n)) (church_encode m)

/-- Observation of `is_zero e` as prescribed by the spec: use the
resulting boolean to select between the distinguishable numerals
`church_encode 1` and `church_encode 0` and decode the selection. -/
def isZeroSel (fuel : Nat) (e : Expr) : Option Nat :=
  church_decode fuel
    (.nameApp (.nameApp (.nameApp .isZero e) (church_encode 1)) (church_encode 0))

/-- Expressions free of the emitting closures of `scott_decode`
(`_output_list` and its nested lambdas).  Every Expression the public
API can build — combinators, encoders, name-calls of such — is
emit-free; only `scott_decode`-internal values are not. -/
def emitFree : Expr → Bool
  | .nameApp f a => emitFree f && emitFree a
  | .chF _ f => emitFree f
  | .k x => emitFree x
  | .yInner f => emitFree f
  | .pred1 n => emitFree n
  | .pred2 n f => emitFree n && emitFree f
  | .predG f => emitFree f
  | .predG2 f g => emitFree f && emitFree g
  | .sub1 n => emitFree n
  | .cons1 a => emitFree a
  | .cons2 a b => emitFree a && emitFree b
  | .outL => false
  | .outL1 _ => false
  | .outL2 _ _ => false
  | _ => true

/-- The self-application term that `Y` builds for the recursion of
`scott_decode`: `(λx. _output_list (x x)) (λx. _output_list (x x))`. -/
def OmegaOut : Expr := .nameApp (.yInner .outL) (.yInner .outL)

/-- `IsList l S`: the Expression `l` behaves, under value-calling with
any selector, exactly as the Scott encoding of the sequence `S`: an
empty list reduces every selector application to `truth`; a non-empty
list with head `e` reduces a selector `sel` to `sel(e)(t)` (as deferred
name-calls) for a fixed tail representative `t` that again represents
the tail sequence. -/
def IsList : Expr → List Expr → Prop
  | l, [] => ∀ (sel : Expr) (st : St) (r : Expr) (st' : St),
      Step l sel st r st' ↔ (r = .truth ∧ st' = st)
  | l, e :: S => ∃ t, IsList t S ∧
      ∀ (sel : Expr) (st : St) (r : Expr) (st' : St),
        Step l sel st r st' ↔ (r = .nameApp (.nameApp sel e) t ∧ st' = st)

/-- The Expressions that `scott_decode` emits when driving the loop
over a representative `l` of the sequence `S`: the `i`-th emitted item
is `car` value-called on the `i`-th tail representative, i.e. the
deferred selection `l_i(truth)` with `l_(i+1) = l_i(falsity)`. -/
def emitsOf : Expr → List Expr → List Expr
  | _, [] => []
  | l, _ :: S => .nameApp l .truth :: emitsOf (.nameApp l .falsity) S

/-- `EvalsTo e a u`: value-calling `e` on `a` from any state
deterministically yields `u` and leaves the state unchanged. -/
def EvalsTo (e a u : Expr) : Prop :=
  ∀ (st : St) (r : Expr) (st' : St), Step e a st r st' ↔ (r = u ∧ st' = st)

/-- The term a Church numeral `m` builds when iterated over `pred`:
`pred(pred(...(pred (ch n))...))` with `m` name-called `pred`s (this is
what `sub`'s body `m pred n` reduces to). -/
def predChain : Nat → Nat → Expr
  | 0, n => .ch n
  | m + 1, n => .nameApp .pred (predChain m n)

/-- Tower of `predG` rotator wrappers over a base, as produced by
nested `pred` evaluations. -/
def gtow : Nat → Expr → Expr
  | 0, f => f
  | i + 1, f => .predG (gtow i f)

/-- Tower of constant-function wrappers (`k`) over a base, as produced
by nested `pred` seeds. -/
def ktow : Nat → Expr → Expr
  | 0, x => x
  | i + 1, x => .k (ktow i x)

/-- The rotation chain a Church numeral `j` builds inside `pred`'s
body: `j` name-calls of the rotator `predG g` over the seed `k s`. -/
def rchain (g s : Expr) : Nat → Expr
  | 0 => .k s
  | j + 1 => .nameApp (.predG g) (rchain g s j)

/-- Left-nested application spine `acc(gtow i f)(gtow (i-1) f)...(f)`
(all name-calls), the shape pred-towers leave behind. -/
def appChain : Nat → Expr → Expr → Expr
  | 0, f, acc => .nameApp acc f
  | i + 1, f, acc => appChain i f (.nameApp acc (gtow (i + 1) f))

/-- The value that forcing `pred^k (ch (k+d'+1))` applied to
`predG f` and `k x` with `I` leaves behind: an `I`-headed spine whose
head is the remaining rotation chain. -/
def junk (k d' : Nat) (f x : Expr) : Expr :=
  .nameApp .idE (appChain k f (rchain (gtow k f) (ktow k x) d'))

/-- Unfolding lemma for `obind`. -/
theorem obind_eq_some {o : Option (Expr × St)} {f : Expr → St → Option (Expr × St)}
    {b : Expr × St} :
    obind o f = some b ↔ ∃ r st, o = some (r, st) ∧ f r st = some b := by
  rcases o with _ | ⟨r, st⟩
  · simp [obind]
  · show f r st = some b ↔ _
    constructor
    · intro h
      exact ⟨r, st, rfl, h⟩
    · rintro ⟨r₁, st₁, heq, h⟩
      cases heq
      exact h

/-- Evaluation is monotone in fuel: a run that completes within
`fuel₁` completes identically with any larger fuel. -/
theorem pbv_mono {fuel₁ fuel₂ : Nat} (hle : fuel₁ ≤ fuel₂) :
    ∀ {e a st p}, pbv fuel₁ e a st = some p → pbv fuel₂ e a st = some p := by
  induction fuel₁ generalizing fuel₂ with
  | zero => intro e a st p h; simp [pbv] at h
  | succ n ih =>
    obtain ⟨m, rfl⟩ : ∃ m, fuel₂ = m + 1 := ⟨fuel₂ - 1, by omega⟩
    have hnm : n ≤ m := by omega
    intro e a st p h
    cases e <;> simp only [pbv] at h ⊢ <;> try exact h
    case nameApp f x =>
      rw [obind_eq_some] at h ⊢
      obtain ⟨r, st₁, h1, h2⟩ := h
      exact ⟨r, st₁, ih hnm h1, ih hnm h2⟩
    case outL1 f =>
      rw [obind_eq_some] at h ⊢
      obtain ⟨r1, st₁, h1, h2⟩ := h
      rw [obind_eq_some] at h2
      obtain ⟨r2, st₂, h3, h4⟩ := h2
      exact ⟨r1, st₁, ih hnm h1, by
        rw [obind_eq_some]
        exact ⟨r2, st₂, ih hnm h3, ih hnm h4⟩⟩
    case outL2 f l =>
      rw [obind_eq_some] at h ⊢
      obtain ⟨c, st₁, h1, h2⟩ := h
      rw [obind_eq_some] at h2
      obtain ⟨d, st₃, h3, h4⟩ := h2
      rw [obind_eq_some] at h4
      obtain ⟨r, st₄, h5, h6⟩ := h4
      exact ⟨c, st₁, ih hnm h1, by
        rw [obind_eq_some]
        exact ⟨d, st₃, ih hnm h3, by
          rw [obind_eq_some]
          exact ⟨r, st₄, ih hnm h5, ih hnm h6⟩⟩⟩

/-- Completeness of the big-step relation for the fuelled evaluator:
every successful `pbv` run is a `Step` derivation. -/
theorem pbv_toStep :
    ∀ {fuel e a st r st'}, pbv fuel e a st = some (r, st') → Step e a st r st' := by
  intro fuel
  induction fuel with
  | zero => intro e a st r st' h; simp [pbv] at h
  | succ n ih =>
    intro e a st r st' h
    cases e <;> simp only [pbv] at h
    case nameApp f x =>
      rw [obind_eq_some] at h
      obtain ⟨r₁, st₁, h1, h2⟩ := h
      exact Step.nameApp (ih h1) (ih h2)
    case outL1 f =>
      rw [obind_eq_some] at h
      obtain ⟨r1, st₁, h1, h2⟩ := h
      rw [obind_eq_some] at h2
      obtain ⟨r2, st₂, h3, h4⟩ := h2
      exact Step.outL1 (ih h1) (ih h3) (ih h4)
    case outL2 f l =>
      rw [obind_eq_some] at h
      obtain ⟨c, st₁, h1, h2⟩ := h
      rw [obind_eq_some] at h2
      obtain ⟨d, st₂, h3, h4⟩ := h2
      rw [obind_eq_some] at h4
      obtain ⟨r₃, st₃, h5, h6⟩ := h4
      exact Step.outL2 (ih h1) (ih h3) (ih h5) (ih h6)
    all_goals
      simp only [Option.some.injEq, Prod.mk.injEq] at h
      obtain ⟨rfl, rfl⟩ := h
      constructor

/-- Soundness of the big-step relation: every `Step` derivation is
realised by the evaluator under some fuel. -/
theorem Step.toPbv {e a st r st'} (h : Step e a st r st') :
    ∃ fuel, pbv fuel e a st = some (r, st') := by
  induction h with
  | nameApp h1 h2 ih1 ih2 =>
    obtain ⟨f1, h1'⟩ := ih1
    obtain ⟨f2, h2'⟩ := ih2
    refine ⟨max f1 f2 + 1, ?_⟩
    simp only [pbv]
    rw [obind_eq_some]
    exact ⟨_, _, pbv_mono (le_max_left f1 f2) h1', pbv_mono (le_max_right f1 f2) h2'⟩
  | outL1 h1 h2 h3 ih1 ih2 ih3 =>
    obtain ⟨f1, h1'⟩ := ih1
    obtain ⟨f2, h2'⟩ := ih2
    obtain ⟨f3, h3'⟩ := ih3
    refine ⟨max f1 (max f2 f3) + 1, ?_⟩
    simp only [pbv]
    rw [obind_eq_some]
    refine ⟨_, _, pbv_mono (le_max_left _ _) h1', ?_⟩
    rw [obind_eq_some]
    exact ⟨_, _, pbv_mono (le_trans (le_max_left f2 f3) (le_max_right _ _)) h2',
      pbv_mono (le_trans (le_max_right f2 f3) (le_max_right _ _)) h3'⟩
  | outL2 h1 h2 h3 h4 ih1 ih2 ih3 ih4 =>
    obtain ⟨f1, h1'⟩ := ih1
    obtain ⟨f2, h2'⟩ := ih2
    obtain ⟨f3, h3'⟩ := ih3
    obtain ⟨f4, h4'⟩ := ih4
    refine ⟨max (max f1 f2) (max f3 f4) + 1, ?_⟩
    simp only [pbv]
    rw [obind_eq_some]
    refine ⟨_, _, pbv_mono (le_trans (le_max_left f1 f2) (le_max_left _ _)) h1', ?_⟩
    rw [obind_eq_some]
    refine ⟨_, _, pbv_mono (le_trans (le_max_right f1 f2) (le_max_left _ _)) h2', ?_⟩
    rw [obind_eq_some]
    exact ⟨_, _, pbv_mono (le_trans (le_max_left f3 f4) (le_max_right _ _)) h3',
      pbv_mono (le_trans (le_max_right f3 f4) (le_max_right _ _)) h4'⟩
  | ch => exact ⟨1, rfl⟩
  | chF => exact ⟨1, rfl⟩
  | k => exact ⟨1, rfl⟩
  | idE => exact ⟨1, rfl⟩
  | truth => exact ⟨1, rfl⟩
  | falsity => exact ⟨1, rfl⟩
  | Y => exact ⟨1, rfl⟩
  | yInner => exact ⟨1, rfl⟩
  | pred => exact ⟨1, rfl⟩
  | pred1 => exact ⟨1, rfl⟩
  | pred2 => exact ⟨1, rfl⟩
  | predG => exact ⟨1, rfl⟩
  | predG2 => exact ⟨1, rfl⟩
  | sub => exact ⟨1, rfl⟩
  | sub1 => exact ⟨1, rfl⟩
  | isZero => exact ⟨1, rfl⟩
  | cons => exact ⟨1, rfl⟩
  | cons1 => exact ⟨1, rfl⟩
  | cons2 => exact ⟨1, rfl⟩
  | car => exact ⟨1, rfl⟩
  | cdr => exact ⟨1, rfl⟩
  | emptyList => exact ⟨1, rfl⟩
  | isEmpty => exact ⟨1, rfl⟩
  | counter => exact ⟨1, rfl⟩
  | outL => exact ⟨1, rfl⟩

/-- Inversion lemmas: one per `Step` rule, so that behaviour statements
can be decided by rewriting.  `step_X_iff` characterises value-calling
the closure shape `X`. -/
@[simp] theorem step_nameApp_iff {f x a : Expr} {st : St} {r' : Expr} {st₂ : St} :
    Step (.nameApp f x) a st r' st₂ ↔
      ∃ r st₁, Step f x st r st₁ ∧ Step r a st₁ r' st₂ := by
  constructor
  · intro h
    cases h with
    | nameApp h1 h2 => exact ⟨_, _, h1, h2⟩
  · rintro ⟨r, st₁, h1, h2⟩
    exact Step.nameApp h1 h2

/-- Inversion for value-calling `ch`. -/
@[simp] theorem step_ch_iff {n : Nat} {a : Expr} {st : St} {r : Expr} {st' : St} :
    Step (.ch n) a st r st' ↔ r = .chF n a ∧ st' = st := by
  constructor
  · intro h
    cases h
    exact ⟨rfl, rfl⟩
  · rintro ⟨rfl, rfl⟩
    constructor

/-- Inversion for value-calling `chF`. -/
@[simp] theorem step_chF_iff {n : Nat} {f : Expr} {a : Expr} {st : St} {r : Expr} {st' : St} :
    Step (.chF n f) a st r st' ↔ r = (Expr.nameApp f)^[n] a ∧ st' = st := by
  constructor
  · intro h
    cases h
    exact ⟨rfl, rfl⟩
  · rintro ⟨rfl, rfl⟩
    constructor

/-- Inversion for value-calling `k`. -/
@[simp] theorem step_k_iff {x : Expr} {a : Expr} {st : St} {r : Expr} {st' : St} :
    Step (.k x) a st r st' ↔ r = x ∧ st' = st := by
  constructor
  · intro h
    cases h
    exact ⟨rfl, rfl⟩
  · rintro ⟨rfl, rfl⟩
    constructor

/-- Inversion for value-calling `idE`. -/
@[simp] theorem step_idE_iff {a : Expr} {st : St} {r : Expr} {st' : St} :
    Step .idE a st r st' ↔ r = a ∧ st' = st := by
  constructor
  · intro h
    cases h
    exact ⟨rfl, rfl⟩
  · rintro ⟨rfl, rfl⟩
    constructor

/-- Inversion for value-calling `truth`. -/
@[simp] theorem step_truth_iff {a : Expr} {st : St} {r : Expr} {st' : St} :
    Step .truth a st r st' ↔ r = .k a ∧ st' = st := by
  constructor
  · intro h
    cases h
    exact ⟨rfl, rfl⟩
  · rintro ⟨rfl, rfl⟩
    constructor

/-- Inversion for value-calling `falsity`. -/
@[simp] theorem step_falsity_iff {a : Expr} {st : St} {r : Expr} {st' : St} :
    Step .falsity a st r st' ↔ r = .idE ∧ st' = st := by
  constructor
  · intro h
    cases h
    exact ⟨rfl, rfl⟩
  · rintro ⟨rfl, rfl⟩
    constructor

/-- Inversion for value-calling `Y`. -/
@[simp] theorem step_Y_iff {a : Expr} {st : St} {r : Expr} {st' : St} :
    Step .Y a st r st' ↔ r = .nameApp a (.nameApp (.yInner a) (.yInner a)) ∧ st' = st := by
  constructor
  · intro h
    cases h
    exact ⟨rfl, rfl⟩
  · rintro ⟨rfl, rfl⟩
    constructor

/-- Inversion for value-calling `yInner`. -/
@[simp] theorem step_yInner_iff {f : Expr} {a : Expr} {st : St} {r : Expr} {st' : St} :
    Step (.yInner f) a st r st' ↔ r = .nameApp f (.nameApp a a) ∧ st' = st := by
  constructor
  · intro h
    cases h
    exact ⟨rfl, rfl⟩
  · rintro ⟨rfl, rfl⟩
    constructor

/-- Inversion for value-calling `pred`. -/
@[simp] theorem step_pred_iff {a : Expr} {st : St} {r : Expr} {st' : St} :
    Step .pred a st r st' ↔ r = .pred1 a ∧ st' = st := by
  constructor
  · intro h
    cases h
    exact ⟨rfl, rfl⟩
  · rintro ⟨rfl, rfl⟩
    constructor

/-- Inversion for value-calling `pred1`. -/
@[simp] theorem step_pred1_iff {n : Expr} {a : Expr} {st : St} {r : Expr} {st' : St} :
    Step (.pred1 n) a st r st' ↔ r = .pred2 n a ∧ st' = st := by
  constructor
  · intro h
    cases h
    exact ⟨rfl, rfl⟩
  · rintro ⟨rfl, rfl⟩
    constructor

/-- Inversion for value-calling `pred2`. -/
@[simp] theorem step_pred2_iff {n f : Expr} {a : Expr} {st : St} {r : Expr} {st' : St} :
    Step (.pred2 n f) a st r st' ↔ r = .nameApp (.nameApp (.nameApp n (.predG f)) (.k a)) .idE ∧ st' = st := by
  constructor
  · intro h
    cases h
    exact ⟨rfl, rfl⟩
  · rintro ⟨rfl, rfl⟩
    constructor

/-- Inversion for value-calling `predG`. -/
@[simp] theorem step_predG_iff {f : Expr} {a : Expr} {st : St} {r : Expr} {st' : St} :
    Step (.predG f) a st r st' ↔ r = .predG2 f a ∧ st' = st := by
  constructor
  · intro h
    cases h
    exact ⟨rfl, rfl⟩
  · rintro ⟨rfl, rfl⟩
    constructor

/-- Inversion for value-calling `predG2`. -/
@[simp] theorem step_predG2_iff {f g : Expr} {a : Expr} {st : St} {r : Expr} {st' : St} :
    Step (.predG2 f g) a st r st' ↔ r = .nameApp a (.nameApp g f) ∧ st' = st := by
  constructor
  · intro h
    cases h
    exact ⟨rfl, rfl⟩
  · rintro ⟨rfl, rfl⟩
    constructor

/-- Inversion for value-calling `sub`. -/
@[simp] theorem step_sub_iff {a : Expr} {st : St} {r : Expr} {st' : St} :
    Step .sub a st r st' ↔ r = .sub1 a ∧ st' = st := by
  constructor
  · intro h
    cases h
    exact ⟨rfl, rfl⟩
  · rintro ⟨rfl, rfl⟩
    constructor

/-- Inversion for value-calling `sub1`. -/
@[simp] theorem step_sub1_iff {n : Expr} {a : Expr} {st : St} {r : Expr} {st' : St} :
    Step (.sub1 n) a st r st' ↔ r = .nameApp (.nameApp a .pred) n ∧ st' = st := by
  constructor
  · intro h
    cases h
    exact ⟨rfl, rfl⟩
  · rintro ⟨rfl, rfl⟩
    constructor

/-- Inversion for value-calling `isZero`. -/
@[simp] theorem step_isZero_iff {a : Expr} {st : St} {r : Expr} {st' : St} :
    Step .isZero a st r st' ↔ r = .nameApp (.nameApp a (.k .falsity)) .truth ∧ st' = st := by
  constructor
  · intro h
    cases h
    exact ⟨rfl, rfl⟩
  · rintro ⟨rfl, rfl⟩
    constructor

/-- Inversion for value-calling `cons`. -/
@[simp] theorem step_cons_iff {a : Expr} {st : St} {r : Expr} {st' : St} :
    Step .cons a st r st' ↔ r = .cons1 a ∧ st' = st := by
  constructor
  · intro h
    cases h
    exact ⟨rfl, rfl⟩
  · rintro ⟨rfl, rfl⟩
    constructor

/-- Inversion for value-calling `cons1`. -/
@[simp] theorem step_cons1_iff {x : Expr} {a : Expr} {st : St} {r : Expr} {st' : St} :
    Step (.cons1 x) a st r st' ↔ r = .cons2 x a ∧ st' = st := by
  constructor
  · intro h
    cases h
    exact ⟨rfl, rfl⟩
  · rintro ⟨rfl, rfl⟩
    constructor

/-- Inversion for value-calling `cons2`. -/
@[simp] theorem step_cons2_iff {x y : Expr} {a : Expr} {st : St} {r : Expr} {st' : St} :
    Step (.cons2 x y) a st r st' ↔ r = .nameApp (.nameApp a x) y ∧ st' = st := by
  constructor
  · intro h
    cases h
    exact ⟨rfl, rfl⟩
  · rintro ⟨rfl, rfl⟩
    constructor

/-- Inversion for value-calling `car`. -/
@[simp] theorem step_car_iff {a : Expr} {st : St} {r : Expr} {st' : St} :
    Step .car a st r st' ↔ r = .nameApp a .truth ∧ st' = st := by
  constructor
  · intro h
    cases h
    exact ⟨rfl, rfl⟩
  · rintro ⟨rfl, rfl⟩
    constructor

/-- Inversion for value-calling `cdr`. -/
@[simp] theorem step_cdr_iff {a : Expr} {st : St} {r : Expr} {st' : St} :
    Step .cdr a st r st' ↔ r = .nameApp a .falsity ∧ st' = st := by
  constructor
  · intro h
    cases h
    exact ⟨rfl, rfl⟩
  · rintro ⟨rfl, rfl⟩
    constructor

/-- Inversion for value-calling `emptyList`. -/
@[simp] theorem step_emptyList_iff {a : Expr} {st : St} {r : Expr} {st' : St} :
    Step .emptyList a st r st' ↔ r = .truth ∧ st' = st := by
  constructor
  · intro h
    cases h
    exact ⟨rfl, rfl⟩
  · rintro ⟨rfl, rfl⟩
    constructor

/-- Inversion for value-calling `isEmpty`. -/
@[simp] theorem step_isEmpty_iff {a : Expr} {st : St} {r : Expr} {st' : St} :
    Step .isEmpty a st r st' ↔ r = .nameApp a (.k (.k .falsity)) ∧ st' = st := by
  constructor
  · intro h
    cases h
    exact ⟨rfl, rfl⟩
  · rintro ⟨rfl, rfl⟩
    constructor

/-- Inversion for value-calling `counter`. -/
@[simp] theorem step_counter_iff {a : Expr} {st : St} {r : Expr} {st' : St} :
    Step .counter a st r st' ↔ r = a ∧ st' = ⟨st.out, st.cnt + 1⟩ := by
  constructor
  · intro h
    cases h
    exact ⟨rfl, rfl⟩
  · rintro ⟨rfl, rfl⟩
    constructor

/-- Inversion for value-calling `outL`. -/
@[simp] theorem step_outL_iff {a : Expr} {st : St} {r : Expr} {st' : St} :
    Step .outL a st r st' ↔ r = .outL1 a ∧ st' = st := by
  constructor
  · intro h
    cases h
    exact ⟨rfl, rfl⟩
  · rintro ⟨rfl, rfl⟩
    constructor

/-- Inversion for value-calling the recursive emit loop head `outL1`. -/
@[simp] theorem step_outL1_iff {f a : Expr} {st : St} {r3 : Expr} {st₃ : St} :
    Step (.outL1 f) a st r3 st₃ ↔
      ∃ r1 st₁ r2 st₂, Step .isEmpty a st r1 st₁ ∧
        Step r1 .emptyList st₁ r2 st₂ ∧ Step r2 (.outL2 f a) st₂ r3 st₃ := by
  constructor
  · intro h
    cases h with
    | outL1 h1 h2 h3 => exact ⟨_, _, _, _, h1, h2, h3⟩
  · rintro ⟨r1, st₁, r2, st₂, h1, h2, h3⟩
    exact Step.outL1 h1 h2 h3

/-- Inversion for value-calling the emit-and-recurse closure `outL2`. -/
@[simp] theorem step_outL2_iff {f l a : Expr} {st : St} {r' : Expr} {st₄ : St} :
    Step (.outL2 f l) a st r' st₄ ↔
      ∃ c st₁ d st₂ r st₃, Step .car l st c st₁ ∧
        Step .cdr l ⟨st₁.out ++ [c], st₁.cnt⟩ d st₂ ∧
        Step f d st₂ r st₃ ∧ Step r a st₃ r' st₄ := by
  constructor
  · intro h
    cases h with
    | outL2 h1 h2 h3 h4 => exact ⟨_, _, _, _, _, _, h1, h2, h3, h4⟩
  · rintro ⟨c, st₁, d, st₂, r, st₃, h1, h2, h3, h4⟩
    exact Step.outL2 h1 h2 h3 h4

/-- Eliminates the bound pair produced by composing a pure `Step`
inversion with `step_nameApp_iff`. -/
@[simp] theorem exists_step_pair_eq {X : Expr} {s : St} {P : Expr → St → Prop} :
    (∃ r st₁, (r = X ∧ st₁ = s) ∧ P r st₁) ↔ P X s := by
  constructor
  · rintro ⟨r, st₁, ⟨rfl, rfl⟩, h⟩
    exact h
  · intro h
    exact ⟨X, s, ⟨rfl, rfl⟩, h⟩

/-- The self-application term inside `Y`'s body never finishes a
value-call: `pbv` returns `none` at every fuel, both for
`(λx. I (x x)) (λx. I (x x))` and for its one-step reduct. -/
theorem pbv_omegaI_none :
    ∀ (fuel : Nat) (a : Expr) (st : St),
      pbv fuel (.nameApp (.yInner .idE) (.yInner .idE)) a st = none ∧
      pbv fuel (.nameApp .idE (.nameApp (.yInner .idE) (.yInner .idE))) a st = none := by
  intro fuel
  induction fuel with
  | zero => intro a st; exact ⟨rfl, rfl⟩
  | succ n ih =>
    intro a st
    constructor
    · cases n with
      | zero => rfl
      | succ m =>
        show obind (pbv (m + 1) (.yInner .idE) (.yInner .idE) st)
            (fun r st₁ => pbv (m + 1) r a st₁) = none
        rw [show pbv (m + 1) (Expr.yInner .idE) (Expr.yInner .idE) st =
            some (.nameApp .idE (.nameApp (.yInner .idE) (.yInner .idE)), st) from rfl]
        exact (ih a st).2
    · cases n with
      | zero => rfl
      | succ m =>
        show obind (pbv (m + 1) .idE (.nameApp (.yInner .idE) (.yInner .idE)) st)
            (fun r st₁ => pbv (m + 1) r a st₁) = none
        rw [show pbv (m + 1) Expr.idE (.nameApp (.yInner .idE) (.yInner .idE)) st =
            some (.nameApp (.yInner .idE) (.yInner .idE), st) from rfl]
        exact (ih a st).1

/-- Value-calling the public application `Y(I)` diverges: the host
evaluation never returns, whatever the fuel. -/
theorem pbv_YI_none :
    ∀ (fuel : Nat) (a : Expr) (st : St), pbv fuel (.nameApp .Y .idE) a st = none := by
  intro fuel a st
  cases fuel with
  | zero => rfl
  | succ n =>
    cases n with
    | zero => rfl
    | succ m =>
      show obind (pbv (m + 1) .Y .idE st) (fun r st₁ => pbv (m + 1) r a st₁) = none
      rw [show pbv (m + 1) Expr.Y Expr.idE st =
          some (.nameApp .idE (.nameApp (.yInner .idE) (.yInner .idE)), st) from rfl]
      exact (pbv_omegaI_none (m + 1) a st).2

/-- Claim C1: for every Expression `e` and argument `a`, the public
application `e(a)` (name-call) always returns a new Expression and
never signals failure — `nameCall` is a total function into `Expr` —
and the returned Expression, when value-called with any ignored
argument, performs `e.value-call(a).value-call(ignored)`: stated both
for the big-step relation and, stage for stage, for the fuelled
evaluator. -/
theorem claim_C1 (e a : Expr) :
    nameCall e a = Expr.nameApp e a ∧
    (∀ (ignored : Expr) (st : St) (r' : Expr) (st₂ : St),
      Step (nameCall e a) ignored st r' st₂ ↔
        ∃ r st₁, Step e a st r st₁ ∧ Step r ignored st₁ r' st₂) ∧
    (∀ (fuel : Nat) (ignored : Expr) (st : St),
      pbv (fuel + 1) (nameCall e a) ignored st =
        obind (pbv fuel e a st) (fun r st₁ => pbv fuel r ignored st₁)) := by
  refine ⟨rfl, ?_, ?_⟩
  · intro ignored st r' st₂
    exact step_nameApp_iff
  · intro fuel ignored st
    rfl

/-- Claim C4: applying `Y` to `f` immediately (in one value-call and
for any state) produces `f` name-called on the self-application term
`Ω f = (λx. f (x x)) (λx. f (x x))` — so `Y f` does not diverge before
producing a usable deferred result — and this behaves the same as
applying `f` to `Y f`: `Ω f` is application-equivalent to the public
application `Y(f)`, and forcing `Y(f)` is exactly forcing `f(Ω f)`. -/
theorem claim_C4 (f : Expr) :
    (∀ st : St, Step .Y f st (.nameApp f (.nameApp (.yInner f) (.yInner f))) st) ∧
    AppEquiv (.nameApp (.yInner f) (.yInner f)) (.nameApp .Y f) ∧
    (∀ (x : Expr) (st : St) (r : Expr) (st' : St),
      Step (.nameApp .Y f) x st r st' ↔
        Step (.nameApp f (.nameApp (.yInner f) (.yInner f))) x st r st') := by
  refine ⟨fun st => Step.Y, ?_, ?_⟩
  · intro a st r st'
    simp
  · intro x st r st'
    simp

/-- Claim C5 counterexample: `empty_list` is not `λf x. x`.
Value-calling `empty_list` with `I` returns the truth term
`λx.λy.x`, and value-calling that with `falsity` returns
`λy. falsity`, not `falsity`; observably, feeding `church_encode 2`
through the two value-calls and decoding yields `0`, not `2`. -/
theorem claim_C5_counterexample :
    pbv 1 .emptyList .idE ⟨[], 0⟩ = some (.truth, ⟨[], 0⟩) ∧
    pbv 1 .truth .falsity ⟨[], 0⟩ = some (.k .falsity, ⟨[], 0⟩) ∧
    Expr.k .falsity ≠ .falsity ∧
    pbv 1 .truth (church_encode 2) ⟨[], 0⟩ = some (.k (church_encode 2), ⟨[], 0⟩) ∧
    church_decode 1 (.k (church_encode 2)) = some 0 := by
  refine ⟨rfl, rfl, ?_, rfl, rfl⟩
  intro h
  cases h

/-- Claim C5 as amended: `empty_list` is the term `λf. λx. λy. x`
(i.e. `λf. truth`): value-calling it with any Expression `f` returns
the truth term, which value-called with any `x` returns `λy. x`, which
value-called with any `y` returns `x`. -/
theorem claim_C5_amended (f x y : Expr) (st : St) :
    Step .emptyList f st .truth st ∧
    Step .truth x st (.k x) st ∧
    Step (.k x) y st x st :=
  ⟨Step.emptyList, Step.truth, Step.k⟩

/-- Claim C7: for all Expressions `a` and `b`, `is_empty` applied to
`empty_list` behaves as `truth` (selecting the first of two subsequent
arguments), and `is_empty` applied to `cons(a)(b)` behaves as
`falsity` (selecting the second), in the strongest sense: the applied
terms are application-equivalent to `truth` resp. `falsity`. -/
theorem claim_C7 (a b : Expr) :
    AppEquiv (.nameApp .isEmpty .emptyList) .truth ∧
    AppEquiv (.nameApp .isEmpty (.nameApp (.nameApp .cons a) b)) .falsity := by
  constructor
  · intro x st r st'
    simp
  · intro x st r st'
    simp

/-- Claim C10: the public name-call never invokes the underlying
mapping: `nameCall` is a pure constructor application, so even for the
Expression `Y(I)` — whose value-call diverges at every fuel — the
name-call `nameCall (Y(I)) x` is immediately defined, and the
underlying mappings run only when the result is later value-called
(at which point, here, they diverge). -/
theorem claim_C10 :
    (∀ (fuel : Nat) (a : Expr) (st : St),
      pbv fuel (.nameApp .Y .idE) a st = none) ∧
    (∀ x : Expr, nameCall (.nameApp .Y .idE) x = .nameApp (.nameApp .Y .idE) x) ∧
    (∀ (x : Expr) (fuel : Nat) (a : Expr) (st : St),
      pbv fuel (nameCall (.nameApp .Y .idE) x) a st = none) := by
  refine ⟨pbv_YI_none, fun x => rfl, ?_⟩
  intro x fuel a st
  cases fuel with
  | zero => rfl
  | succ n =>
    show obind (pbv n (.nameApp .Y .idE) x st) (fun r st₁ => pbv n r a st₁) = none
    rw [pbv_YI_none n x st]
    rfl

/-- Unfolding of a value-called name-call: the deferred composition. -/
theorem pbv_nameApp (fuel : Nat) (f x a : Expr) (st : St) :
    pbv (fuel + 1) (.nameApp f x) a st =
      obind (pbv fuel f x st) (fun r st₁ => pbv fuel r a st₁) := rfl

/-- Forcing the chain `counter(counter(...(counter I)...))` (j nested
name-calls, as built by a Church numeral applied to the counting
closure) with argument `I` increments the counter exactly `j` times
and returns `I`. -/
theorem pbv_counterChain :
    ∀ (j fuel : Nat), j + 1 ≤ fuel → ∀ st : St,
      pbv fuel ((Expr.nameApp .counter)^[j] .idE) .idE st =
        some (.idE, ⟨st.out, st.cnt + j⟩) := by
  intro j
  induction j with
  | zero =>
    intro fuel hf st
    obtain ⟨m, rfl⟩ : ∃ m, fuel = m + 1 := ⟨fuel - 1, by omega⟩
    simp [pbv]
  | succ j ih =>
    intro fuel hf st
    obtain ⟨m, rfl⟩ : ∃ m, fuel = m + 1 := ⟨fuel - 1, by omega⟩
    obtain ⟨p, rfl⟩ : ∃ p, m = p + 1 := ⟨m - 1, by omega⟩
    rw [Function.iterate_succ_apply', pbv_nameApp]
    rw [show pbv (p + 1) Expr.counter ((Expr.nameApp Expr.counter)^[j] Expr.idE) st =
        some ((Expr.nameApp Expr.counter)^[j] Expr.idE, ⟨st.out, st.cnt + 1⟩) from rfl]
    show pbv (p + 1) ((Expr.nameApp Expr.counter)^[j] Expr.idE) Expr.idE
        ⟨st.out, st.cnt + 1⟩ = _
    rw [ih (p + 1) (by omega)]
    have : st.cnt + 1 + j = st.cnt + (j + 1) := by omega
    rw [this]

/-- The three stages of `church_decode` on a literal Church numeral. -/
theorem decodeRun_church (n : Nat) :
    decodeRun (n + 1) (church_encode n) ⟨[], 0⟩ = some (.idE, ⟨[], n⟩) := by
  unfold decodeRun church_encode
  rw [show pbv (n + 1) (Expr.ch n) Expr.counter ⟨[], 0⟩ =
      some (Expr.chF n Expr.counter, ⟨[], 0⟩) from rfl]
  show obind (pbv (n + 1) (Expr.chF n Expr.counter) Expr.idE ⟨[], 0⟩)
      (fun r2 st₂ => pbv (n + 1) r2 Expr.idE st₂) = _
  rw [show pbv (n + 1) (Expr.chF n Expr.counter) Expr.idE ⟨[], 0⟩ =
      some ((Expr.nameApp Expr.counter)^[n] Expr.idE, ⟨[], 0⟩) from rfl]
  show pbv (n + 1) ((Expr.nameApp Expr.counter)^[n] Expr.idE) Expr.idE ⟨[], 0⟩ = _
  rw [pbv_counterChain n (n + 1) (by omega)]
  simp

/-- Claim C2: for every natural number `n` (in particular throughout
0–100), `church_decode (church_encode n) = n`; fuel `n + 1` always
suffices. -/
theorem claim_C2 (n : Nat) : church_decode (n + 1) (church_encode n) = some n := by
  unfold church_decode
  rw [decodeRun_church n]
  rfl

/-- A chain of name-calls of an emit-free head over an emit-free seed
is emit-free. -/
@[simp] theorem emitFree_iterate {f a : Expr} {n : Nat}
    (hf : emitFree f = true) (ha : emitFree a = true) :
    emitFree ((Expr.nameApp f)^[n] a) = true := by
  induction n with
  | zero => exact ha
  | succ n ih =>
    rw [Function.iterate_succ_apply']
    simp [emitFree, hf, ih]

/-- Frame property of evaluation on emit-free expressions: a value-call
of an emit-free closure on an emit-free argument yields an emit-free
result, never touches the output sink, only ever increments the
counter, and does so by a state-independent amount — the same run
succeeds from every ambient state with the same result and the same
counter increment. -/
theorem pbv_shift :
    ∀ (fuel : Nat) (e a : Expr), emitFree e = true → emitFree a = true →
      ∀ (st : St) (r : Expr) (st' : St), pbv fuel e a st = some (r, st') →
        emitFree r = true ∧ st'.out = st.out ∧ st.cnt ≤ st'.cnt ∧
        ∀ (out : List Expr) (c : Nat),
          pbv fuel e a ⟨out, c⟩ = some (r, ⟨out, c + (st'.cnt - st.cnt)⟩) := by
  intro fuel
  induction fuel with
  | zero => intro e a he ha st r st' h; simp [pbv] at h
  | succ n ih =>
    intro e a he ha st r st' h
    cases e
    case outL => simp [emitFree] at he
    case outL1 => simp [emitFree] at he
    case outL2 => simp [emitFree] at he
    case nameApp f x =>
      simp only [emitFree, Bool.and_eq_true] at he
      obtain ⟨hf, hx⟩ := he
      rw [pbv_nameApp, obind_eq_some] at h
      obtain ⟨r₁, st₁, h1, h2⟩ := h
      obtain ⟨hr₁, ho₁, hle₁, htr₁⟩ := ih f x hf hx st r₁ st₁ h1
      obtain ⟨hr₂, ho₂, hle₂, htr₂⟩ := ih r₁ a hr₁ ha st₁ r st' h2
      refine ⟨hr₂, by rw [ho₂, ho₁], le_trans hle₁ hle₂, fun out c => ?_⟩
      rw [pbv_nameApp, htr₁ out c]
      show pbv n r₁ a ⟨out, c + (st₁.cnt - st.cnt)⟩ = _
      rw [htr₂ out (c + (st₁.cnt - st.cnt))]
      have harith : c + (st₁.cnt - st.cnt) + (st'.cnt - st₁.cnt) =
          c + (st'.cnt - st.cnt) := by omega
      rw [harith]
    case counter =>
      simp only [pbv, Option.some.injEq, Prod.mk.injEq] at h
      obtain ⟨rfl, rfl⟩ := h
      refine ⟨ha, rfl, Nat.le_succ _, fun out c => ?_⟩
      simp [pbv, Nat.add_sub_cancel_left]
    all_goals
      simp only [pbv, Option.some.injEq, Prod.mk.injEq] at h
      obtain ⟨rfl, rfl⟩ := h
      exact ⟨by simp_all [emitFree], rfl, Nat.le.refl,
        fun out c => by simp [pbv, Nat.sub_self]⟩

/-- Claim C9: the counter used by `church_decode` is function-local and
fresh per call: for any emit-free Expression (anything the public API
can produce), running the decode stages from an arbitrary ambient
state gives exactly the fresh-counter run with the ambient output
untouched and the ambient counter shifted by the decoded amount — so
the decode does not mutate its argument (Expressions are immutable
values here) or any shared state, and two calls of `church_decode` on
the same Expression return the same natural number both times. -/
theorem claim_C9 (fuel : Nat) (e : Expr) (h : emitFree e = true) :
    (∀ (out : List Expr) (c : Nat),
      decodeRun fuel e ⟨out, c⟩ =
        (decodeRun fuel e ⟨[], 0⟩).map (fun p => (p.1, ⟨out, c + p.2.cnt⟩))) ∧
    (∀ (st : St) (r : Expr) (st' : St), decodeRun fuel e st = some (r, st') →
      st'.out = st.out) := by
  have key : ∀ (st : St) (r : Expr) (st' : St), decodeRun fuel e st = some (r, st') →
      emitFree r = true ∧ st'.out = st.out ∧ st.cnt ≤ st'.cnt ∧
      ∀ (out : List Expr) (c : Nat),
        decodeRun fuel e ⟨out, c⟩ = some (r, ⟨out, c + (st'.cnt - st.cnt)⟩) := by
    intro st r st' hrun
    unfold decodeRun at hrun ⊢
    rw [obind_eq_some] at hrun
    obtain ⟨r₁, st₁, h1, h2⟩ := hrun
    rw [obind_eq_some] at h2
    obtain ⟨r₂, st₂, h3, h4⟩ := h2
    obtain ⟨hr₁, ho₁, hle₁, ht₁⟩ := pbv_shift fuel e .counter h rfl st r₁ st₁ h1
    obtain ⟨hr₂, ho₂, hle₂, ht₂⟩ := pbv_shift fuel r₁ .idE hr₁ rfl st₁ r₂ st₂ h3
    obtain ⟨hr₃, ho₃, hle₃, ht₃⟩ := pbv_shift fuel r₂ .idE hr₂ rfl st₂ r st' h4
    refine ⟨hr₃, by rw [ho₃, ho₂, ho₁], by omega, fun out c => ?_⟩
    rw [obind_eq_some]
    refine ⟨r₁, ⟨out, c + (st₁.cnt - st.cnt)⟩, ht₁ out c, ?_⟩
    rw [obind_eq_some]
    refine ⟨r₂, ⟨out, c + (st₁.cnt - st.cnt) + (st₂.cnt - st₁.cnt)⟩, ht₂ _ _, ?_⟩
    rw [ht₃ out (c + (st₁.cnt - st.cnt) + (st₂.cnt - st₁.cnt))]
    have harith : c + (st₁.cnt - st.cnt) + (st₂.cnt - st₁.cnt) + (st'.cnt - st₂.cnt) =
        c + (st'.cnt - st.cnt) := by omega
    rw [harith]
  constructor
  · intro out c
    cases hfresh : decodeRun fuel e ⟨[], 0⟩ with
    | none =>
      cases hamb : decodeRun fuel e ⟨out, c⟩ with
      | none => rfl
      | some p =>
        exfalso
        have := (key ⟨out, c⟩ p.1 p.2 (by rw [hamb])).2.2.2 [] 0
        rw [hfresh] at this
        cases this
    | some p =>
      obtain ⟨r, st'⟩ := p
      have hk := key ⟨[], 0⟩ r st' hfresh
      rw [hk.2.2.2 out c]
      simp
  · intro st r st' hrun
    exact (key st r st' hrun).2.1

/-- Witness for claim C9 at the concrete input `church_encode 2` with
fuel 3. -/
theorem claim_C9_witness :
    (∀ (out : List Expr) (c : Nat),
      decodeRun 3 (church_encode 2) ⟨out, c⟩ =
        (decodeRun 3 (church_encode 2) ⟨[], 0⟩).map (fun p => (p.1, ⟨out, c + p.2.cnt⟩))) ∧
    (∀ (st : St) (r : Expr) (st' : St), decodeRun 3 (church_encode 2) st = some (r, st') →
      st'.out = st.out) :=
  claim_C9 3 (church_encode 2) rfl

/-- The Scott encoder produces representatives of its input sequence. -/
theorem isList_encode : ∀ S : List Expr, IsList (scott_encode S) S := by
  intro S
  induction S with
  | nil =>
    intro sel st r st'
    simp [scott_encode]
  | cons e S ih =>
    refine ⟨scott_encode S, ih, ?_⟩
    intro sel st r st'
    show Step (.nameApp (.nameApp .cons e) (scott_encode S)) sel st r st' ↔ _
    simp

/-- Value-calling a non-empty list representative's `cdr` term on any
selector behaves as the tail representative does. -/
theorem step_cdrTerm {l e t : Expr}
    (hchar : ∀ (sel : Expr) (st : St) (r : Expr) (st' : St),
      Step l sel st r st' ↔ (r = .nameApp (.nameApp sel e) t ∧ st' = st)) :
    ∀ (sel : Expr) (st : St) (r : Expr) (st' : St),
      Step (.nameApp l .falsity) sel st r st' ↔ Step t sel st r st' := by
  intro sel st r st'
  simp [hchar]

/-- The tail term `l(falsity)` of a representative of `e :: S`
represents `S`. -/
theorem isList_cdr {l e : Expr} {S : List Expr} (h : IsList l (e :: S)) :
    IsList (.nameApp l .falsity) S := by
  obtain ⟨t, ht, hchar⟩ := h
  cases S with
  | nil =>
    intro sel st r st'
    rw [step_cdrTerm hchar]
    exact ht sel st r st'
  | cons e' S' =>
    obtain ⟨t', ht', hchar'⟩ := ht
    refine ⟨t', ht', ?_⟩
    intro sel st r st'
    rw [step_cdrTerm hchar]
    exact hchar' sel st r st'

/-- The head term `l(truth)` of a representative of `e :: S` is
application-equivalent to the head element `e`. -/
theorem appEquiv_car {l e : Expr} {S : List Expr} (h : IsList l (e :: S)) :
    AppEquiv (.nameApp l .truth) e := by
  obtain ⟨t, ht, hchar⟩ := h
  intro x st r st'
  simp [hchar]

/-- Main loop of `scott_decode`, fuel-free: driving the `Y`-built
unconser over a representative of `S` halts with the constant `truth`,
appends exactly `emitsOf l S` to the output sink, and leaves the
counter alone. -/
theorem scott_loop :
    ∀ (S : List Expr) (l : Expr), IsList l S → ∀ st : St,
      ∃ R₁, Step (.outL1 OmegaOut) l st R₁ st ∧
        Step R₁ .idE st .truth ⟨st.out ++ emitsOf l S, st.cnt⟩ := by
  intro S
  induction S with
  | nil =>
    intro l h st
    refine ⟨.emptyList, ?_, ?_⟩
    · refine Step.outL1 Step.isEmpty ?_ Step.k
      exact Step.nameApp ((h _ st .truth st).mpr ⟨rfl, rfl⟩) Step.truth
    · have : (⟨st.out ++ emitsOf l [], st.cnt⟩ : St) = st := by
        simp [emitsOf]
      rw [this]
      exact Step.emptyList
  | cons e S ih =>
    intro l h st
    obtain ⟨t, ht, hchar⟩ := h
    have hd : IsList (.nameApp l .falsity) S := isList_cdr ⟨t, ht, hchar⟩
    refine ⟨.outL2 OmegaOut l, ?_, ?_⟩
    · refine Step.outL1 Step.isEmpty ?_ Step.idE
      refine Step.nameApp ((hchar _ st _ st).mpr ⟨rfl, rfl⟩) ?_
      exact Step.nameApp (Step.nameApp Step.k Step.k) Step.falsity
    · obtain ⟨R₁', hA, hB⟩ := ih (.nameApp l .falsity) hd
        ⟨st.out ++ [.nameApp l .truth], st.cnt⟩
      have houts : (⟨(⟨st.out ++ [.nameApp l .truth], st.cnt⟩ : St).out ++
          emitsOf (.nameApp l .falsity) S,
          (⟨st.out ++ [.nameApp l .truth], st.cnt⟩ : St).cnt⟩ : St) =
          ⟨st.out ++ emitsOf l (e :: S), st.cnt⟩ := by
        simp [emitsOf]
      refine Step.outL2 Step.car Step.cdr ?_ (houts ▸ hB)
      exact Step.nameApp Step.yInner (Step.nameApp Step.outL hA)

/-- The emitted items are pointwise application-equivalent to the
elements of the represented sequence (in particular there are exactly
as many, in the same order). -/
theorem emitsOf_forall₂ :
    ∀ (S : List Expr) (l : Expr), IsList l S →
      List.Forall₂ AppEquiv (emitsOf l S) S := by
  intro S
  induction S with
  | nil => intro l _; exact List.Forall₂.nil
  | cons e S ih =>
    intro l h
    exact List.Forall₂.cons (appEquiv_car h) (ih _ (isList_cdr h))

/-- `obind` on a present value. -/
theorem obind_some (r : Expr) (st : St) (f : Expr → St → Option (Expr × St)) :
    obind (some (r, st)) f = f r st := rfl

/-- Executable form of the Scott round trip: decoding the encoding of
`S` succeeds for every large enough fuel and emits `emitsOf`. -/
theorem scott_decode_encode (S : List Expr) :
    ∃ fuel : Nat, ∀ fuel', fuel ≤ fuel' →
      scott_decode fuel' (scott_encode S) =
        some (emitsOf (scott_encode S) S) := by
  obtain ⟨R₁, hA, hB⟩ := scott_loop S (scott_encode S) (isList_encode S) ⟨[], 0⟩
  have s2 : Step (.nameApp .outL OmegaOut) (scott_encode S) ⟨[], 0⟩ R₁ ⟨[], 0⟩ :=
    Step.nameApp Step.outL hA
  obtain ⟨f2, h2⟩ := s2.toPbv
  obtain ⟨f3, h3⟩ := hB.toPbv
  refine ⟨max f2 f3 + 1, fun fuel' hf => ?_⟩
  obtain ⟨m, rfl⟩ : ∃ m, fuel' = m + 1 := ⟨fuel' - 1, by omega⟩
  unfold scott_decode
  have e1 : pbv (m + 1) Expr.Y Expr.outL ⟨[], 0⟩ =
      some (.nameApp .outL OmegaOut, ⟨[], 0⟩) := rfl
  have e2 : pbv (m + 1) (.nameApp .outL OmegaOut) (scott_encode S) ⟨[], 0⟩ =
      some (R₁, ⟨[], 0⟩) := pbv_mono (by omega) h2
  have e3 : pbv (m + 1) R₁ .idE ⟨[], 0⟩ =
      some (.truth, ⟨[] ++ emitsOf (scott_encode S) S, 0⟩) := pbv_mono (by omega) h3
  have e4 : pbv (m + 1) Expr.truth Expr.idE ⟨[] ++ emitsOf (scott_encode S) S, 0⟩ =
      some (.k .idE, ⟨[] ++ emitsOf (scott_encode S) S, 0⟩) := rfl
  simp only [e1, obind_some, e2, e3, e4, Option.map_some]
  simp

/-- Anything application-equivalent to the Church numeral `ch n`
church-decodes to `n`, for every large enough fuel. -/
theorem church_decode_of_appEquiv {e : Expr} {n : Nat}
    (h : AppEquiv e (Expr.ch n)) :
    ∃ fuel : Nat, ∀ fuel', fuel ≤ fuel' → church_decode fuel' e = some n := by
  have s1 : Step e .counter ⟨[], 0⟩ (.chF n .counter) ⟨[], 0⟩ :=
    (h .counter ⟨[], 0⟩ (.chF n .counter) ⟨[], 0⟩).mpr Step.ch
  obtain ⟨f1, h1⟩ := s1.toPbv
  refine ⟨max f1 (n + 1), fun fuel' hf => ?_⟩
  unfold church_decode decodeRun
  have e1 : pbv fuel' e .counter ⟨[], 0⟩ = some (.chF n .counter, ⟨[], 0⟩) :=
    pbv_mono (by omega) h1
  have e2 : pbv fuel' (.chF n .counter) .idE ⟨[], 0⟩ =
      some ((Expr.nameApp .counter)^[n] .idE, ⟨[], 0⟩) := by
    obtain ⟨m, rfl⟩ : ∃ m, fuel' = m + 1 := ⟨fuel' - 1, by omega⟩
    rfl
  have e3 : pbv fuel' ((Expr.nameApp .counter)^[n] .idE) .idE ⟨[], 0⟩ =
      some (.idE, ⟨[], n⟩) := by
    have := pbv_counterChain n fuel' (by omega) ⟨[], 0⟩
    simpa using this
  simp only [e1, obind_some, e2, e3]
  rfl

/-- Combining per-element decodes over a list of Church-equivalent
expressions. -/
theorem mapM_church_decode {E : List Expr} {ns : List Nat}
    (h : List.Forall₂ (fun e n => AppEquiv e (Expr.ch n)) E ns) :
    ∃ fuel : Nat, ∀ fuel', fuel ≤ fuel' →
      E.mapM (church_decode fuel') = some ns := by
  induction h with
  | nil => exact ⟨0, fun _ _ => rfl⟩
  | cons he hrest ih =>
    obtain ⟨f1, h1⟩ := church_decode_of_appEquiv he
    obtain ⟨f2, h2⟩ := ih
    refine ⟨max f1 f2, fun fuel' hf => ?_⟩
    rw [List.mapM_cons, h1 fuel' (by omega), h2 fuel' (by omega)]
    rfl

/-- Claim C3: for every finite sequence `S` of Expressions,
`scott_decode (scott_encode S)` succeeds and emits exactly the
elements of `S` — element for element and in order, where "exactly"
is application-equivalence, the only notion of sameness the library
defines (`List.Forall₂ AppEquiv` forces equal length and pointwise
equivalence in order) — and consequently, for sequences of
Church-encoded naturals, decoding each emitted element recovers the
original naturals. -/
theorem claim_C3 :
    (∀ S : List Expr, ∃ (fuel : Nat) (E : List Expr),
      scott_decode fuel (scott_encode S) = some E ∧
      List.Forall₂ AppEquiv E S) ∧
    (∀ ns : List Nat, ∃ fuel : Nat,
      (scott_decode fuel (scott_encode (ns.map church_encode))).bind
        (fun E => E.mapM (church_decode fuel)) = some ns) := by
  constructor
  · intro S
    obtain ⟨f, hrun⟩ := scott_decode_encode S
    exact ⟨f, emitsOf (scott_encode S) S, hrun f le_rfl,
      emitsOf_forall₂ S (scott_encode S) (isList_encode S)⟩
  · intro ns
    obtain ⟨f1, hrun⟩ := scott_decode_encode (ns.map church_encode)
    have hf2 : List.Forall₂ (fun e n => AppEquiv e (Expr.ch n))
        (emitsOf (scott_encode (ns.map church_encode)) (ns.map church_encode))
        ns := by
      have hall := emitsOf_forall₂ (ns.map church_encode) _
        (isList_encode (ns.map church_encode))
      rwa [List.forall₂_map_right_iff] at hall
    obtain ⟨f2, hmap⟩ := mapM_church_decode hf2
    refine ⟨max f1 f2, ?_⟩
    rw [hrun _ (le_max_left _ _)]
    exact hmap _ (le_max_right _ _)

/-- Claim C8: running `run_on_integer_sequence` on the input sequence
`[3, 1, 4]` with the identity combinator `I` as the program emits
exactly `[3, 1, 4]`; fuel 14 suffices for the whole pipeline. -/
theorem claim_C8 : run_on_integer_sequence 14 [3, 1, 4] .idE = some [3, 1, 4] := by
  rfl

/-- Composition of deterministic value-calls through a name-call. -/
theorem evalsTo_nameApp {f x a u v : Expr}
    (h1 : EvalsTo f x u) (h2 : EvalsTo u a v) :
    EvalsTo (.nameApp f x) a v := by
  intro st r st'
  rw [step_nameApp_iff]
  constructor
  · rintro ⟨r₁, st₁, hs1, hs2⟩
    obtain ⟨he1, he2⟩ := (h1 st r₁ st₁).mp hs1
    exact (h2 st r st').mp (he1 ▸ he2 ▸ hs2)
  · rintro ⟨he1, he2⟩
    exact ⟨u, st, (h1 st u st).mpr ⟨rfl, rfl⟩, (h2 st r st').mpr ⟨he1, he2⟩⟩

/-- A name-call whose operator part evaluates deterministically is
application-equivalent to that operator value. -/
theorem appEquiv_nameApp {f x u : Expr} (h : EvalsTo f x u) :
    AppEquiv (.nameApp f x) u := by
  intro a st r st'
  rw [step_nameApp_iff]
  constructor
  · rintro ⟨r₁, st₁, hs1, hs2⟩
    obtain ⟨he1, he2⟩ := (h st r₁ st₁).mp hs1
    exact he1 ▸ he2 ▸ hs2
  · intro hs
    exact ⟨u, st, (h st u st).mpr ⟨rfl, rfl⟩, hs⟩

/-- Transport a deterministic evaluation along application
equivalence. -/
theorem evalsTo_of_appEquiv {e e' a u : Expr}
    (he : AppEquiv e e') (h : EvalsTo e' a u) : EvalsTo e a u :=
  fun st r st' => (he a st r st').trans (h st r st')

/-- Transitivity of application equivalence. -/
theorem appEquiv_trans {e₁ e₂ e₃ : Expr}
    (h1 : AppEquiv e₁ e₂) (h2 : AppEquiv e₂ e₃) : AppEquiv e₁ e₃ :=
  fun a st r st' => (h1 a st r st').trans (h2 a st r st')

/-- Deterministic one-step evaluations of the closure shapes used by
the arithmetic combinators, as `EvalsTo` facts. -/
theorem evalsTo_ch (n : Nat) (a : Expr) : EvalsTo (.ch n) a (.chF n a) :=
  fun _ _ _ => step_ch_iff

theorem evalsTo_chF (n : Nat) (f a : Expr) : EvalsTo (.chF n f) a ((Expr.nameApp f)^[n] a) :=
  fun _ _ _ => step_chF_iff

theorem evalsTo_k (x a : Expr) : EvalsTo (.k x) a x :=
  fun _ _ _ => step_k_iff

theorem evalsTo_idE (a : Expr) : EvalsTo .idE a a :=
  fun _ _ _ => step_idE_iff

theorem evalsTo_truth (a : Expr) : EvalsTo .truth a (.k a) :=
  fun _ _ _ => step_truth_iff

theorem evalsTo_pred (a : Expr) : EvalsTo .pred a (.pred1 a) :=
  fun _ _ _ => step_pred_iff

theorem evalsTo_pred1 (n a : Expr) : EvalsTo (.pred1 n) a (.pred2 n a) :=
  fun _ _ _ => step_pred1_iff

theorem evalsTo_pred2 (n f a : Expr) : EvalsTo (.pred2 n f) a (.nameApp (.nameApp (.nameApp n (.predG f)) (.k a)) .idE) :=
  fun _ _ _ => step_pred2_iff

theorem evalsTo_predG (f a : Expr) : EvalsTo (.predG f) a (.predG2 f a) :=
  fun _ _ _ => step_predG_iff

theorem evalsTo_predG2 (f g a : Expr) : EvalsTo (.predG2 f g) a (.nameApp a (.nameApp g f)) :=
  fun _ _ _ => step_predG2_iff

theorem evalsTo_sub (a : Expr) : EvalsTo .sub a (.sub1 a) :=
  fun _ _ _ => step_sub_iff

theorem evalsTo_sub1 (n a : Expr) : EvalsTo (.sub1 n) a (.nameApp (.nameApp a .pred) n) :=
  fun _ _ _ => step_sub1_iff

theorem evalsTo_isZero (a : Expr) : EvalsTo .isZero a (.nameApp (.nameApp a (.k .falsity)) .truth) :=
  fun _ _ _ => step_isZero_iff

/-- `gtow` over a `predG`-wrapped base. -/
theorem gtow_predG (k : Nat) (f : Expr) :
    gtow k (.predG f) = .predG (gtow k f) := by
  induction k with
  | zero => rfl
  | succ k ih => show Expr.predG (gtow k (.predG f)) = _; rw [ih]; rfl

/-- `ktow` over a `k`-wrapped base. -/
theorem ktow_k (j : Nat) (x : Expr) : ktow j (.k x) = .k (ktow j x) := by
  induction j with
  | zero => rfl
  | succ j ih => show Expr.k (ktow j (.k x)) = _; rw [ih]; rfl

/-- The iterated name-call chain built by `chF j (predG f)` on seed
`k x` is `rchain f x j`. -/
theorem rchain_eq_iterate (f x : Expr) :
    ∀ j : Nat, (Expr.nameApp (.predG f))^[j] (.k x) = rchain f x j := by
  intro j
  induction j with
  | zero => rfl
  | succ j ih => rw [Function.iterate_succ_apply', ih]; rfl

/-- The term built by `chF m pred` on seed `ch n` is `predChain m n`. -/
theorem predChain_eq_iterate (n : Nat) :
    ∀ m : Nat, (Expr.nameApp .pred)^[m] (.ch n) = predChain m n := by
  intro m
  induction m with
  | zero => rfl
  | succ m ih => rw [Function.iterate_succ_apply', ih]; rfl

/-- Forcing a nonempty rotation chain with any argument `a` rotates
once: `a` is applied to the remaining chain applied to the rotator
base. -/
theorem evalsTo_rchain_succ (g s a : Expr) (j : Nat) :
    EvalsTo (rchain g s (j + 1)) a (.nameApp a (.nameApp (rchain g s j) g)) :=
  evalsTo_nameApp (evalsTo_predG g (rchain g s j)) (evalsTo_predG2 g (rchain g s j) a)

/-- The empty rotation chain is the constant seed. -/
theorem evalsTo_rchain_zero (g s a : Expr) : EvalsTo (rchain g s 0) a s :=
  evalsTo_k s a

/-- A `k`-tower absorbs any argument, shrinking by one level. -/
theorem evalsTo_ktow (j : Nat) (x a : Expr) :
    EvalsTo (ktow (j + 1) x) a (ktow j x) :=
  evalsTo_k (ktow j x) a

/-- Absorption: an application spine whose head always collapses to a
`k`-tower of matching height swallows all its arguments and one final
forcing argument, leaving the tower base. -/
theorem appChain_absorb :
    ∀ (i : Nat) (f acc X : Expr),
      (∀ a : Expr, EvalsTo acc a (ktow (i + 1) X)) →
      ∀ y : Expr, EvalsTo (appChain i f acc) y X := by
  intro i
  induction i with
  | zero =>
    intro f acc X hacc y
    exact evalsTo_nameApp (hacc f) (evalsTo_k X y)
  | succ i ih =>
    intro f acc X hacc y
    show EvalsTo (appChain i f (.nameApp acc (gtow (i + 1) f))) y X
    refine ih f _ X (fun a => ?_) y
    exact evalsTo_nameApp (hacc (gtow (i + 1) f)) (evalsTo_ktow (i + 1) X a)

/-- Evaluating a rotator spine: applying the spine over base `predG f`
to a final argument `y` rotates every tower level once, producing `y`
name-called on the spine over base `f` with the head advanced. -/
theorem spine_eval :
    ∀ (i : Nat) (f RH R₀ : Expr),
      EvalsTo RH (gtow (i + 1) f)
        (.nameApp (gtow (i + 1) f) (.nameApp R₀ (gtow (i + 1) f))) →
      ∀ y : Expr, EvalsTo (appChain i (.predG f) RH) y
        (.nameApp y (appChain i f (.nameApp R₀ (gtow (i + 1) f)))) := by
  intro i
  induction i with
  | zero =>
    intro f RH R₀ hRH y
    show EvalsTo (.nameApp RH (.predG f)) y _
    refine evalsTo_nameApp (hRH : EvalsTo RH (gtow 1 f) _) ?_
    exact evalsTo_nameApp (evalsTo_predG f (.nameApp R₀ (gtow 1 f)))
      (evalsTo_predG2 f (.nameApp R₀ (gtow 1 f)) y)
  | succ i ih =>
    intro f RH R₀ hRH y
    show EvalsTo (appChain i (.predG f) (.nameApp RH (gtow (i + 1) (.predG f)))) y _
    rw [gtow_predG]
    have hb1 : EvalsTo RH (.predG (gtow (i + 1) f))
        (.nameApp (.predG (gtow (i + 1) f))
          (.nameApp R₀ (.predG (gtow (i + 1) f)))) := hRH
    have hb2 : EvalsTo
        (.nameApp (.predG (gtow (i + 1) f)) (.nameApp R₀ (.predG (gtow (i + 1) f))))
        (gtow (i + 1) f)
        (.nameApp (gtow (i + 1) f)
          (.nameApp (.nameApp R₀ (.predG (gtow (i + 1) f))) (gtow (i + 1) f))) :=
      evalsTo_nameApp
        (evalsTo_predG (gtow (i + 1) f) (.nameApp R₀ (.predG (gtow (i + 1) f))))
        (evalsTo_predG2 (gtow (i + 1) f) (.nameApp R₀ (.predG (gtow (i + 1) f)))
          (gtow (i + 1) f))
    exact ih f (.nameApp RH (.predG (gtow (i + 1) f)))
      (.nameApp R₀ (.predG (gtow (i + 1) f))) (evalsTo_nameApp hb1 hb2) y

/-- Forcing the junk of a `predG`/`k`-shifted instance with `I`
advances one pred level: the head chain loses one rotation and the
spine gains one argument. -/
theorem junk_force (k d' : Nat) (f x : Expr) :
    EvalsTo (junk k (d' + 1) (.predG f) (.k x)) .idE (junk (k + 1) d' f x) := by
  show EvalsTo (.nameApp .idE
      (appChain k (.predG f) (rchain (gtow k (.predG f)) (ktow k (.k x)) (d' + 1))))
    .idE _
  rw [gtow_predG, ktow_k]
  refine evalsTo_nameApp (evalsTo_idE _) ?_
  exact spine_eval k f
    (rchain (.predG (gtow k f)) (.k (ktow k x)) (d' + 1))
    (rchain (.predG (gtow k f)) (.k (ktow k x)) d')
    (evalsTo_rchain_succ (.predG (gtow k f)) (.k (ktow k x)) (gtow (k + 1) f) d')
    .idE

/-- Value-calling the body of `k` nested `pred`s over the Church
numeral `k + d' + 1`, applied to rotator `predG f` and seed `k x`,
then forced with `I`, yields the junk normal form. -/
theorem junk_lemma :
    ∀ (k : Nat) (d' : Nat) (f x : Expr),
      EvalsTo (.nameApp (.nameApp (predChain k (k + d' + 1)) (.predG f)) (.k x))
        .idE (junk k d' f x) := by
  intro k
  induction k with
  | zero =>
    intro d' f x
    rw [show (0 : Nat) + d' + 1 = d' + 1 from by omega]
    have h1 : EvalsTo (.nameApp (.ch (d' + 1)) (.predG f)) (.k x)
        (rchain f x (d' + 1)) := by
      have h := evalsTo_nameApp (evalsTo_ch (d' + 1) (.predG f))
        (evalsTo_chF (d' + 1) (.predG f) (.k x))
      rwa [rchain_eq_iterate f x (d' + 1)] at h
    exact evalsTo_nameApp h1 (evalsTo_rchain_succ f x .idE d')
  | succ k ih =>
    intro d' f x
    have ihx := ih (d' + 1) (.predG f) (.k x)
    rw [show k + (d' + 1) + 1 = k + 1 + d' + 1 from by omega] at ihx
    exact evalsTo_nameApp
      (evalsTo_nameApp
        (evalsTo_nameApp (evalsTo_pred (predChain k (k + 1 + d' + 1)))
          (evalsTo_pred1 (predChain k (k + 1 + d' + 1)) (.predG f)))
        (evalsTo_pred2 (predChain k (k + 1 + d' + 1)) (.predG f) (.k x)))
      (evalsTo_nameApp ihx (junk_force k d' f x))

/-- Core saturation property of the pair-rotation predecessor: `k`
nested `pred`s over the Church numeral `n` with `n ≤ k`, applied to a
rotator `predG f` and a seed `k x` and forced with `I`, return exactly
the seed body `x` with no state change (the numeral has been driven
to zero and the pair's value slot holds the original seed). -/
theorem predA :
    ∀ (k n : Nat), n ≤ k → ∀ (f x : Expr),
      EvalsTo (.nameApp (.nameApp (predChain k n) (.predG f)) (.k x)) .idE x := by
  intro k
  induction k with
  | zero =>
    intro n hn f x
    obtain rfl : n = 0 := by omega
    exact evalsTo_nameApp (evalsTo_nameApp (evalsTo_ch 0 (.predG f))
      (evalsTo_chF 0 (.predG f) (.k x))) (evalsTo_k x .idE)
  | succ k ih =>
    intro n hn f x
    have hop : EvalsTo (.nameApp (predChain (k + 1) n) (.predG f)) (.k x)
        (.nameApp (.nameApp (.nameApp (predChain k n) (.predG (.predG f)))
          (.k (.k x))) .idE) :=
      evalsTo_nameApp
        (evalsTo_nameApp (evalsTo_pred (predChain k n))
          (evalsTo_pred1 (predChain k n) (.predG f)))
        (evalsTo_pred2 (predChain k n) (.predG f) (.k x))
    by_cases hnk : n ≤ k
    · exact evalsTo_nameApp hop
        (evalsTo_nameApp (ih n hnk (.predG f) (.k x)) (evalsTo_k x .idE))
    · obtain rfl : n = k + 1 := by omega
      have hjl := junk_lemma k 0 (.predG f) (.k x)
      rw [show k + 0 + 1 = k + 1 from by omega] at hjl
      have habs : EvalsTo (junk k 0 (.predG f) (.k x)) .idE x := by
        show EvalsTo (.nameApp .idE (appChain k (.predG f) (.k (ktow k (.k x))))) .idE x
        rw [ktow_k]
        exact evalsTo_nameApp (evalsTo_idE _)
          (appChain_absorb k (.predG f) (.k (.k (ktow k x))) x
            (fun a => evalsTo_k (.k (ktow k x)) a) .idE)
      exact evalsTo_nameApp hop (evalsTo_nameApp hjl habs)

/-- `sub(church_encode n)(church_encode m)` is application-equivalent
to the chain of `m` name-called `pred`s over `church_encode n` (the
reduct of `m pred n`). -/
theorem appEquiv_sub (n m : Nat) : AppEquiv (subE n m) (predChain m n) := by
  have h1 : EvalsTo (.nameApp .sub (church_encode n)) (church_encode m)
      (.nameApp (.nameApp (.ch m) .pred) (.ch n)) :=
    evalsTo_nameApp (evalsTo_sub (.ch n)) (evalsTo_sub1 (.ch n) (.ch m))
  have h2 : EvalsTo (.nameApp (.ch m) .pred) (.ch n) (predChain m n) := by
    have h := evalsTo_nameApp (evalsTo_ch m .pred) (evalsTo_chF m .pred (.ch n))
    rwa [predChain_eq_iterate n m] at h
  exact appEquiv_trans (appEquiv_nameApp h1) (appEquiv_nameApp h2)

/-- When `n < m`, observing `is_zero (sub n m)` by selecting between
Church 1 and Church 0 behaves exactly as the Church numeral 1: the
subtraction saturates at zero and `is_zero` yields truth. -/
theorem isZero_sub_lt {n m : Nat} (h : n < m) :
    AppEquiv (.nameApp (.nameApp (.nameApp .isZero (subE n m)) (church_encode 1))
      (church_encode 0)) (.ch 1) := by
  obtain ⟨m', rfl⟩ : ∃ m', m = m' + 1 := ⟨m - 1, by omega⟩
  have hpc : EvalsTo (predChain (m' + 1) n) (.k .falsity)
      (.pred2 (predChain m' n) (.k .falsity)) :=
    evalsTo_nameApp (evalsTo_pred (predChain m' n))
      (evalsTo_pred1 (predChain m' n) (.k .falsity))
  have hw : EvalsTo (subE n (m' + 1)) (.k .falsity)
      (.pred2 (predChain m' n) (.k .falsity)) :=
    evalsTo_of_appEquiv (appEquiv_sub n (m' + 1)) hpc
  have hZ₁ : EvalsTo (.nameApp (subE n (m' + 1)) (.k .falsity)) .truth
      (.nameApp (.nameApp (.nameApp (predChain m' n) (.predG (.k .falsity)))
        (.k .truth)) .idE) :=
    evalsTo_nameApp hw (evalsTo_pred2 (predChain m' n) (.k .falsity) .truth)
  have hC : EvalsTo (.nameApp (.nameApp (.nameApp (predChain m' n)
      (.predG (.k .falsity))) (.k .truth)) .idE) (.ch 1) (.k (.ch 1)) :=
    evalsTo_nameApp (predA m' n (by omega) (.k .falsity) .truth)
      (evalsTo_truth (.ch 1))
  have hZ : EvalsTo (.nameApp .isZero (subE n (m' + 1))) (.ch 1) (.k (.ch 1)) :=
    evalsTo_nameApp (evalsTo_isZero (subE n (m' + 1)))
      (evalsTo_nameApp hZ₁ hC)
  exact appEquiv_nameApp (evalsTo_nameApp hZ (evalsTo_k (.ch 1) (.ch 0)))

/-- Claim C6: `sub(church_encode 5)(church_encode 2)` decodes to `3`
(fuel 11 suffices); subtraction saturates at zero — the predecessor of
Church 0 decodes to 0 — and for all naturals `n < m`,
`sub(church_encode n)(church_encode m)` behaves as the calculus's zero
as observed via `is_zero` (selecting Church 1 for truth and Church 0
for falsity decodes to 1). -/
theorem claim_C6 :
    church_decode 11 (subE 5 2) = some 3 ∧
    church_decode 4 (.nameApp .pred (church_encode 0)) = some 0 ∧
    (∀ n m : Nat, n < m → ∃ fuel : Nat, isZeroSel fuel (subE n m) = some 1) := by
  refine ⟨by rfl, by rfl, ?_⟩
  intro n m hnm
  obtain ⟨fuel, hf⟩ := church_decode_of_appEquiv (isZero_sub_lt hnm)
  exact ⟨fuel, hf fuel le_rfl⟩

/-- Witness for claim C6's saturation part at the concrete input
`n = 1 < 2 = m`. -/
theorem claim_C6_witness : ∃ fuel : Nat, isZeroSel fuel (subE 1 2) = some 1 :=
  claim_C6.2.2 1 2 (by decide)

end LambdaCpp
